import Mathlib

/-!
Shallow embedding of the password-generation engine of `script.js`.

Randomness is modelled as a tape of unsigned 32-bit draws (`List Nat`),
consumed left to right: each `window.crypto.getRandomValues` call takes the
head of the tape.  A function that needs more randomness than the tape
provides returns `none`.  The one loop of the source that is not bounded by
a data structure (the `while` loop of `fillPassword`) additionally receives
an explicit iteration budget `fuel`; every iteration of that loop consumes
at least one tape element, so any `fuel ≥ tape.length` is as good as an
infinite budget.  Thrown `Error`s of the source become `Except.error`.
-/

namespace PwGen

/-- The literal `0xFFFFFFFF` of the source (`maxUint32`). -/
def maxUint32 : Nat := 0xFFFFFFFF

/-- `getRandomInt(max)` of the source, rejection sampling over the draw tape.

The JS computes `limit = maxUint32 - (maxUint32 % max)` and loops
`do { draw } while (randomValue >= limit)`, then returns `randomValue % max`.
For `max = 0`, JS arithmetic gives `limit = NaN`, the comparison
`randomValue >= NaN` is `false`, so the very first draw is accepted and
`randomValue % 0` evaluates to `NaN`; the `NaN` outcome is modelled as the
inner `none`.  The result is the returned value together with the unread
rest of the tape. -/
def getRandomInt (max : Nat) : List Nat → Option (Option Nat × List Nat)
  | [] => none
  | d :: ds =>
    if max = 0 then
      some (none, ds)
    else
      if maxUint32 - maxUint32 % max ≤ d then getRandomInt max ds
      else some (some (d % max), ds)

/-- `getRandomInt` as used by the rest of the program, where the bound is
always a positive array length so the `NaN` case cannot occur: a successful
call yields an index and the rest of the tape. -/
def drawIndex (n : Nat) (tape : List Nat) : Option (Nat × List Nat) :=
  match getRandomInt n tape with
  | some (some v, t) => some (v, t)
  | _ => none

/-- The `options` object read from the checkboxes. -/
structure Options where
  includeNumbers : Bool
  includeLowercase : Bool
  includeUppercase : Bool
  includeSymbols : Bool
  noSimilar : Bool
  noDuplicate : Bool
  noSequential : Bool
deriving Repr, DecidableEq

/-- The characters removed by the regex `/[il1Lo0O]/g`. -/
def similarChars : List Char := ['i', 'l', '1', 'L', 'o', '0', 'O']

/-- `buildCharacterSets(options)` of the source. -/
def buildCharacterSets (o : Options) : List (List Char) :=
  let characterSets :=
    (if o.includeNumbers then ["0123456789".toList] else []) ++
    (if o.includeLowercase then ["abcdefghijklmnopqrstuvwxyz".toList] else []) ++
    (if o.includeUppercase then ["ABCDEFGHIJKLMNOPQRSTUVWXYZ".toList] else []) ++
    (if o.includeSymbols then ["!@#$%^&*()-_=+[]\x7b\x7d|;:\",.<>/?~".toList] else [])
  if o.noSimilar then
    characterSets.map (fun s => s.filter (fun c => !(similarChars.contains c)))
  else
    characterSets

/-- The two `throw new Error(...)` sites of the assembler. -/
inductive GenError where
  /-- `'Cannot include at least one character from each selected type ...'` -/
  | infeasibleConstraints
  /-- `'Ran out of characters to use. ...'` -/
  | exhaustedAlphabet
deriving Repr, DecidableEq

/-- `ensureCharacterTypeInclusion(passwordArray, characterSets, options, usedChars)`
of the source: one seed character per character set, appended in order.
Returns the updated `passwordArray`, `usedChars` and tape. -/
def ensureCharacterTypeInclusion (o : Options) :
    List Char → List (List Char) → List Char → List Nat →
    Option (Except GenError (List Char × List Char × List Nat))
  | passwordArray, [], usedChars, tape => some (.ok (passwordArray, usedChars, tape))
  | passwordArray, set :: rest, usedChars, tape =>
    let availableSetArray :=
      if o.noDuplicate then set.filter (fun c => !(usedChars.contains c)) else set
    if availableSetArray.length = 0 then
      some (.error .infeasibleConstraints)
    else
      match drawIndex availableSetArray.length tape with
      | none => none
      | some (i, tape') =>
        let c := availableSetArray.getD i ' '
        ensureCharacterTypeInclusion o (passwordArray ++ [c]) rest (usedChars ++ [c]) tape'

/-- The adjacency test of `fillPassword`:
`Math.abs(currCharCode - prevCharCode) === 1` against the last element of
`passwordArray` (`charCodeAt(0)`; all characters involved are ASCII, so the
UTF-16 code unit is the code point). -/
def isSequentialToLast (passwordArray : List Char) (c : Char) : Bool :=
  match passwordArray.getLast? with
  | none => false
  | some prev => Int.natAbs ((c.toNat : Int) - (prev.toNat : Int)) == 1

/-- `fillPassword(passwordArray, allCharsArray, length, options, usedChars)`
of the source.  The `while (passwordArray.length < length)` loop is given an
explicit iteration budget `fuel`; each iteration consumes at least one tape
element, so `none` (budget or tape exhausted) only replaces runs that would
have kept drawing. -/
def fillPassword (o : Options) (len : Nat) (allCharsArray : List Char) :
    Nat → List Char → List Char → List Nat →
    Option (Except GenError (List Char × List Char × List Nat))
  | fuel, passwordArray, usedChars, tape =>
    if len ≤ passwordArray.length then some (.ok (passwordArray, usedChars, tape))
    else
      match fuel with
      | 0 => none
      | fuel + 1 =>
        if allCharsArray.length = 0 then some (.error .exhaustedAlphabet)
        else
          match drawIndex allCharsArray.length tape with
          | none => none
          | some (i, tape') =>
            let c := allCharsArray.getD i ' '
            if o.noDuplicate && usedChars.contains c then
              fillPassword o len allCharsArray fuel passwordArray usedChars tape'
            else if o.noSequential && decide (0 < passwordArray.length) &&
                isSequentialToLast passwordArray c then
              fillPassword o len allCharsArray fuel passwordArray usedChars tape'
            else
              fillPassword o len allCharsArray fuel (passwordArray ++ [c])
                (usedChars ++ [c]) tape'

/-- The destructuring swap
`[passwordArray[i], passwordArray[j]] = [passwordArray[j], passwordArray[i]]`. -/
def swap (arr : List Char) (i j : Nat) : List Char :=
  match arr.get? i, arr.get? j with
  | some a, some b => (arr.set i b).set j a
  | _, _ => arr

/-- The Fisher–Yates loop
`for (let i = passwordArray.length - 1; i > 0; i--)` of the click handler,
starting at index `i`. -/
def shuffleFrom : List Char → Nat → List Nat → Option (List Char × List Nat)
  | arr, 0, tape => some (arr, tape)
  | arr, i + 1, tape =>
    match drawIndex (i + 1 + 1) tape with
    | none => none
    | some (j, tape') => shuffleFrom (swap arr (i + 1) j) i tape'

/-- One iteration body of the batch `while` loop: seed one character per
selected set, fill to the requested length, shuffle, and join.  Returns the
final password (as a character list) and the unread tape. -/
def attempt (o : Options) (characterSets : List (List Char))
    (allCharsArray : List Char) (len : Nat) (fuel : Nat) (tape : List Nat) :
    Option (Except GenError (List Char × List Nat)) :=
  match ensureCharacterTypeInclusion o [] characterSets [] tape with
  | none => none
  | some (.error e) => some (.error e)
  | some (.ok (passwordArray, usedChars, tape1)) =>
    let availableChars :=
      if o.noDuplicate then allCharsArray.filter (fun c => !(usedChars.contains c))
      else allCharsArray
    match fillPassword o len availableChars fuel passwordArray usedChars tape1 with
    | none => none
    | some (.error e) => some (.error e)
    | some (.ok (passwordArray2, _, tape2)) =>
      match shuffleFrom passwordArray2 (passwordArray2.length - 1) tape2 with
      | none => none
      | some (arr, tape3) => some (.ok (arr, tape3))

/-- The `while (generatedPasswords.size < 5 && attempts < 1000)` loop.
`generated` is the accepted-set (insertion order kept; the source's `Set` only
performs string-equality membership tests).  `attemptsLeft` counts the
remaining attempt budget (`1000 - attempts`).  Returns the accepted list, the
error thrown by the current attempt if any (the source's `try/catch` stops the
loop there), the unread tape, and how many attempts were made. -/
def batchLoop (o : Options) (characterSets : List (List Char))
    (allCharsArray : List Char) (len : Nat) (fuel : Nat) :
    List (List Char) → Nat → List Nat →
    Option (List (List Char) × Option GenError × List Nat × Nat)
  | generated, attemptsLeft, tape =>
    if 5 ≤ generated.length then some (generated, none, tape, 0)
    else
      match attemptsLeft with
      | 0 => some (generated, none, tape, 0)
      | n + 1 =>
        match attempt o characterSets allCharsArray len fuel tape with
        | none => none
        | some (.error e) => some (generated, some e, tape, 1)
        | some (.ok (pw, tape')) =>
          if generated.contains pw then
            match batchLoop o characterSets allCharsArray len fuel generated n tape' with
            | none => none
            | some (ps, err, t, a) => some (ps, err, t, a + 1)
          else
            match batchLoop o characterSets allCharsArray len fuel
                (generated ++ [pw]) n tape' with
            | none => none
            | some (ps, err, t, a) => some (ps, err, t, a + 1)

/-- Everything the click handler can report back to the page. -/
inductive GenOutcome where
  /-- `'No character types selected. ...'` -/
  | noTypes
  /-- `'Cannot generate a N-character password without duplicates ...'` -/
  | lengthExceedsAlphabet
  /-- the batch loop ran: accepted passwords in order, the error thrown by an
  attempt if one was, whether the post-loop `'Could not generate enough unique
  passwords'` message fires, and the number of attempts made -/
  | results (passwords : List (List Char)) (err : Option GenError)
      (partialYield : Bool) (attempts : Nat)
deriving Repr, DecidableEq

/-- The `generateBtn` click handler of the source, from option validation to
the final partial-yield check.  Returns the outcome and the unread tape. -/
def generate (o : Options) (len : Nat) (fuel : Nat) (tape : List Nat) :
    Option (GenOutcome × List Nat) :=
  if !(o.includeNumbers || o.includeLowercase || o.includeUppercase ||
      o.includeSymbols) then
    some (.noTypes, tape)
  else
    let characterSets := buildCharacterSets o
    let allCharsArray := characterSets.flatten
    if o.noDuplicate && decide (allCharsArray.length < len) then
      some (.lengthExceedsAlphabet, tape)
    else
      match batchLoop o characterSets allCharsArray len fuel [] 1000 tape with
      | none => none
      | some (ps, some e, t, a) => some (.results ps (some e) false a, t)
      | some (ps, none, t, a) =>
        some (.results ps none (decide (ps.length < 5)) a, t)

/-- `calculateEntropy(passwordLength, characterSetSize)` of the source, as the
real number it computes before the two-decimal display formatting
(`.toFixed(2)`). -/
noncomputable def calculateEntropy (passwordLength characterSetSize : Nat) : ℝ :=
  passwordLength * Real.logb 2 characterSetSize

/-- The `{label, className}` object returned by `getPasswordStrength`. -/
structure StrengthInfo where
  label : String
  className : String
deriving Repr, DecidableEq

open Classical in
/-- `getPasswordStrength(entropy)` of the source. -/
noncomputable def getPasswordStrength (entropy : ℝ) : StrengthInfo :=
  if entropy < 50 then ⟨"Weak", "strength-weak"⟩
  else if entropy < 70 then ⟨"Fair", "strength-fair"⟩
  else if entropy < 90 then ⟨"Good", "strength-good"⟩
  else if entropy < 110 then ⟨"Strong", "strength-strong"⟩
  else if entropy < 130 then ⟨"Very Strong", "strength-very-strong"⟩
  else if entropy < 150 then ⟨"Extremely Strong", "strength-extremely-strong"⟩
  else ⟨"Unbreakable", "strength-unbreakable"⟩

/-- Whether some adjacent pair of characters has code points differing by
exactly 1 (the property `noSequential` is meant to forbid). -/
def hasSeqAdjacent : List Char → Bool
  | a :: b :: rest =>
    (Int.natAbs ((a.toNat : Int) - (b.toNat : Int)) == 1) || hasSeqAdjacent (b :: rest)
  | _ => false

/-! ## Basic lemmas about the sampler -/

theorem limit_eq (b : Nat) : maxUint32 - maxUint32 % b = maxUint32 / b * b := by
  have h := Nat.div_add_mod maxUint32 b
  have h2 : b * (maxUint32 / b) = maxUint32 / b * b := Nat.mul_comm _ _
  omega

theorem getRandomInt_pos_some {b : Nat} (hb : 0 < b) {t t' : List Nat}
    {v : Option Nat} (h : getRandomInt b t = some (v, t')) :
    ∃ n, v = some n ∧ n < b ∧ t'.length < t.length := by
  induction t with
  | nil => simp [getRandomInt] at h
  | cons d ds ih =>
    rw [getRandomInt] at h
    rw [if_neg (Nat.pos_iff_ne_zero.mp hb)] at h
    by_cases hrej : maxUint32 - maxUint32 % b ≤ d
    · rw [if_pos hrej] at h
      obtain ⟨n, hn, hlt, hlen⟩ := ih h
      exact ⟨n, hn, hlt, Nat.lt_succ_of_lt hlen⟩
    · rw [if_neg hrej] at h
      simp only [Option.some.injEq, Prod.mk.injEq] at h
      exact ⟨d % b, h.1.symm, Nat.mod_lt _ hb, by simp [← h.2]⟩

theorem drawIndex_some {n : Nat} {t t' : List Nat} {i : Nat}
    (h : drawIndex n t = some (i, t')) : i < n ∧ t'.length < t.length := by
  unfold drawIndex at h
  rcases hg : getRandomInt n t with _ | ⟨v, tr⟩ <;> rw [hg] at h
  · simp at h
  · rcases Nat.eq_zero_or_pos n with hn | hn
    · subst hn
      cases t with
      | nil => simp [getRandomInt] at hg
      | cons d ds =>
        rw [getRandomInt, if_pos rfl] at hg
        cases hg
        simp at h
    · obtain ⟨m', hv, hlt, hlen⟩ := getRandomInt_pos_some hn hg
      subst hv
      simp only [Option.some.injEq, Prod.mk.injEq] at h
      obtain ⟨hi, ht⟩ := h
      subst hi; subst ht
      exact ⟨hlt, hlen⟩

/-- Count of accepted draws below a multiple of `b` that reduce to a given
residue: each residue class is hit exactly `k` times, so reduction of an
accepted draw is unbiased. -/
theorem mod_class_card (b k v : Nat) (hv : v < b) :
    ((Finset.range (k * b)).filter (fun d => d % b = v)).card = k := by
  have hb : 0 < b := Nat.pos_of_ne_zero (by rintro rfl; exact Nat.not_lt_zero v hv)
  have key : ((Finset.range (k * b)).filter (fun d => d % b = v)).card =
      (Finset.range k).card := by
    apply Finset.card_bij' (fun d _ => d / b) (fun c _ => c * b + v)
    · intro d hd
      obtain ⟨hdr, hdm⟩ := Finset.mem_filter.mp hd
      exact Finset.mem_range.mpr
        ((Nat.div_lt_iff_lt_mul hb).mpr (Finset.mem_range.mp hdr))
    · intro c hc
      refine Finset.mem_filter.mpr ⟨Finset.mem_range.mpr ?_, ?_⟩
      · calc c * b + v < c * b + b := by omega
          _ = (c + 1) * b := by ring
          _ ≤ k * b := Nat.mul_le_mul_right b (Finset.mem_range.mp hc)
      · rw [Nat.add_comm, Nat.add_mul_mod_self_right, Nat.mod_eq_of_lt hv]
    · intro d hd
      obtain ⟨_, hdm⟩ := Finset.mem_filter.mp hd
      conv_rhs => rw [← Nat.div_add_mod d b]
      rw [hdm]; ring
    · intro c hc
      rw [Nat.add_comm, Nat.add_mul_div_right _ _ hb, Nat.div_eq_of_lt hv]
      omega
  rw [key, Finset.card_range]

end PwGen

namespace PwGen

/-! ## Claim theorems -/

/-- Claim C3: for every valid bound `b ≥ 1` (a u32, so `b ≤ maxUint32`),
`getRandomInt b` (1) discards and redraws any draw at or above
`limit = floor(maxUint32 / b) * b`, (2) reduces an accepted draw modulo `b`,
(3) returns only values in `[0, b)`, (4) reaches every value of `[0, b)`, and
(5) is unbiased over accepted draws: every residue in `[0, b)` has exactly
`maxUint32 / b` accepted preimages below the limit. -/
theorem C3_rejection_sampling (b : Nat) (hb : 1 ≤ b) (hb32 : b ≤ maxUint32) :
    (∀ d ds, maxUint32 / b * b ≤ d →
      getRandomInt b (d :: ds) = getRandomInt b ds) ∧
    (∀ d ds, d < maxUint32 / b * b →
      getRandomInt b (d :: ds) = some (some (d % b), ds)) ∧
    (∀ t v t', getRandomInt b t = some (v, t') → ∃ n, v = some n ∧ n < b) ∧
    (∀ v, v < b → getRandomInt b [v] = some (some v, [])) ∧
    (∀ v, v < b →
      ((Finset.range (maxUint32 / b * b)).filter (fun d => d % b = v)).card =
        maxUint32 / b) := by
  have hb0 : b ≠ 0 := by omega
  have hlim : maxUint32 - maxUint32 % b = maxUint32 / b * b := limit_eq b
  refine ⟨?_, ?_, ?_, ?_, ?_⟩
  · intro d ds hd
    rw [getRandomInt, if_neg hb0, if_pos (by omega)]
  · intro d ds hd
    rw [getRandomInt, if_neg hb0, if_neg (by omega)]
  · intro t v t' h
    obtain ⟨n, hn, hlt, _⟩ := getRandomInt_pos_some (by omega) h
    exact ⟨n, hn, hlt⟩
  · intro v hv
    have hvlim : v < maxUint32 / b * b := by
      have : 1 * b ≤ maxUint32 / b * b :=
        Nat.mul_le_mul_right b (Nat.one_le_div_iff (by omega) |>.mpr hb32)
      omega
    rw [getRandomInt, if_neg hb0, if_neg (by omega), Nat.mod_eq_of_lt hv]
  · intro v hv
    exact mod_class_card b (maxUint32 / b) v hv

/-- Claim C3 witness: the theorem applied at bound 5, draw 3. -/
theorem C3_witness : getRandomInt 5 [3] = some (some 3, []) :=
  (C3_rejection_sampling 5 (by decide) (by decide)).2.2.2.1 3 (by decide)

/-- Claim C4: called with `exclusiveUpperBound = 0`, `getRandomInt` does not
return a normal in-range value: JS evaluates `limit` to `NaN`, the rejection
test `randomValue >= NaN` is false, and `randomValue % 0` is `NaN` (modelled
as the inner `none`), whatever the first draw is. -/
theorem C4_zero_bound_fails (d : Nat) (ds : List Nat) :
    getRandomInt 0 (d :: ds) = some (none, ds) := rfl

/-- Claim C5: with `noDuplicate` set and a requested length exceeding the size
of the full (similar-stripped) alphabet, the click handler fails immediately
with the length-exceeds-alphabet error: no password is produced and the draw
tape is returned untouched, so no sampling call was made. -/
theorem C5_length_precheck (o : Options) (len fuel : Nat) (tape : List Nat)
    (hflags : (o.includeNumbers || o.includeLowercase || o.includeUppercase ||
      o.includeSymbols) = true)
    (hdup : o.noDuplicate = true)
    (hlen : (buildCharacterSets o).flatten.length < len) :
    generate o len fuel tape = some (.lengthExceedsAlphabet, tape) := by
  rw [generate, if_neg (by simp [hflags])]
  have hc : (o.noDuplicate &&
      decide ((buildCharacterSets o).flatten.length < len)) = true := by
    rw [hdup, Bool.true_and]
    exact decide_eq_true hlen
  simp only [hc, if_true]

/-- Claim C5 witness: numbers only with `noDuplicate`, length 15: alphabet
size 10 < 15, so the precheck fires at once and the tape is untouched. -/
theorem C5_witness :
    generate ⟨true, false, false, false, false, true, false⟩ 15 100 [1, 2, 3] =
      some (.lengthExceedsAlphabet, [1, 2, 3]) :=
  C5_length_precheck _ 15 100 [1, 2, 3] (by decide) (by decide) (by decide)

theorem getD_take_eq {α : Type} (l : List α) (n j : Nat) (d : α) (h : j < n) :
    (l.take n).getD j d = l.getD j d := by
  rw [List.getD_eq_getElem?_getD, List.getElem?_take, if_pos h,
    ← List.getD_eq_getElem?_getD]

/-- Claim C1 counterexample: lowercase only with `noSequential`, length 3.
On this draw tape the run accepts the password "dab" (the first of five): the
adjacency check of `fillPassword` only inspects the previously placed
character, and the Fisher–Yates shuffle then moves 'a' (97) and 'b' (98) next
to each other, so an accepted final password does contain two adjacent
characters whose code points differ by exactly 1. -/
theorem C1_counterexample :
    generate ⟨false, true, false, false, false, false, true⟩ 3 100
        [0, 3, 1, 2, 0, 4, 7, 10, 2, 0, 8, 11, 14, 2, 0, 12, 15, 18, 2, 0,
          16, 19, 22, 2, 0] =
      some (.results [['d', 'a', 'b'], ['h', 'e', 'k'], ['l', 'i', 'o'],
        ['p', 'm', 's'], ['t', 'q', 'w']] none false 5, []) ∧
    hasSeqAdjacent ['d', 'a', 'b'] = true := by
  constructor
  · decide
  · decide

/-- Claim C1 amended: with `noSequential` set, the no-adjacent-code-point
property holds for the candidate as it stands at the end of the filling step,
before the shuffle, and only at positions at or after the seeded prefix:
every character appended by `fillPassword` differs by more than 1 in code
point from its immediate predecessor.  (Seeded characters are never checked,
and the final shuffle can reorder the candidate arbitrarily, as the
counterexample shows.) -/
theorem C1_amended_fill_no_sequential (o : Options) (hseq : o.noSequential = true)
    (len : Nat) (all : List Char) (fuel : Nat) (pass used res used' : List Char)
    (tape tape' : List Nat)
    (h : fillPassword o len all fuel pass used tape =
      some (.ok (res, used', tape'))) :
    res.take pass.length = pass ∧
    ∀ i, pass.length ≤ i + 1 → i + 1 < res.length →
      Int.natAbs (((res.getD (i + 1) ' ').toNat : Int) -
        ((res.getD i ' ').toNat : Int)) ≠ 1 := by
  induction fuel generalizing pass used tape with
  | zero =>
    rw [fillPassword] at h
    by_cases hle : len ≤ pass.length
    · rw [if_pos hle] at h
      cases h
      exact ⟨List.take_length _, fun i h1 h2 => absurd h2 (by omega)⟩
    · rw [if_neg hle] at h
      simp at h
  | succ f ih =>
    rw [fillPassword] at h
    by_cases hle : len ≤ pass.length
    · rw [if_pos hle] at h
      cases h
      exact ⟨List.take_length _, fun i h1 h2 => absurd h2 (by omega)⟩
    · rw [if_neg hle] at h
      by_cases hempty : all.length = 0
      · rw [if_pos hempty] at h
        simp at h
      · rw [if_neg hempty] at h
        rcases hdi : drawIndex all.length tape with _ | ⟨i0, t1⟩ <;> rw [hdi] at h
        · simp at h
        · dsimp only at h
          by_cases hdup : (o.noDuplicate && used.contains (all.getD i0 ' ')) = true
          · rw [if_pos hdup] at h
            exact ih _ _ _ h
          · rw [if_neg hdup] at h
            by_cases hsq : (o.noSequential && decide (0 < pass.length) &&
                isSequentialToLast pass (all.getD i0 ' ')) = true
            · rw [if_pos hsq] at h
              exact ih _ _ _ h
            · rw [if_neg hsq] at h
              obtain ⟨htake0, hpairs⟩ := ih _ _ _ h
              have htake : res.take (pass.length + 1) = pass ++ [all.getD i0 ' '] := by
                simpa using htake0
              have htakep : res.take pass.length = pass := by
                have h1 : res.take pass.length =
                    (res.take (pass.length + 1)).take pass.length := by
                  rw [List.take_take, min_eq_left (by omega)]
                rw [h1, htake]
                exact List.take_left pass [all.getD i0 ' ']
              refine ⟨htakep, ?_⟩
              intro i h1 h2
              rcases Nat.lt_or_ge (i + 1) (pass.length + 1) with hlt | hge
              · -- the pair formed by this append: the rejected-draw test was false
                have hi : i + 1 = pass.length := by omega
                have hpos : 0 < pass.length := by omega
                have hseqlast : isSequentialToLast pass (all.getD i0 ' ') = false := by
                  by_contra hcon
                  apply hsq
                  simp only [Bool.not_eq_false] at hcon
                  rw [hseq, hcon]
                  simp [hpos]
                have hres1 : res.getD (i + 1) ' ' = all.getD i0 ' ' := by
                  rw [← getD_take_eq res (pass.length + 1) (i + 1) ' ' (by omega),
                    htake, hi, List.getD_append_right _ _ _ _ (le_refl _)]
                  simp
                have hres0 : res.getD i ' ' = pass.getD i ' ' := by
                  rw [← getD_take_eq res (pass.length + 1) i ' ' (by omega), htake,
                    List.getD_append _ _ _ _ (by omega)]
                rw [hres1, hres0]
                -- unfold the last-character test
                unfold isSequentialToLast at hseqlast
                have hlast : pass.getLast? = some (pass.getD i ' ') := by
                  rw [List.getLast?_eq_getElem?,
                    List.getD_eq_getElem pass ' ' (n := i) (by omega)]
                  have : pass.length - 1 = i := by omega
                  rw [this, List.getElem?_eq_getElem (by omega)]
                rw [hlast] at hseqlast
                simp only [beq_eq_false_iff_ne, ne_eq] at hseqlast
                omega
              · exact hpairs i (by simpa using hge) h2

/-- Claim C1 amended witness: a concrete fill (lowercase, `noSequential`,
seed "a", draws 3 then 1) yields "adb"; the theorem certifies the pair at the
filled positions 1 and 2 ('d','b') differs by more than 1. -/
theorem C1_amended_witness :
    Int.natAbs ((((['a', 'd', 'b'] : List Char).getD 2 ' ').toNat : Int) -
      (((['a', 'd', 'b'] : List Char).getD 1 ' ').toNat : Int)) ≠ 1 :=
  (C1_amended_fill_no_sequential
    ⟨false, true, false, false, false, false, true⟩ rfl 3
    "abcdefghijklmnopqrstuvwxyz".toList 10 ['a'] ['a'] ['a', 'd', 'b']
    ['a', 'd', 'b'] [3, 1] [] rfl).2 1 (by decide) (by decide)

/-! ## Composition lemmas: propagating a stuck fill outward -/

theorem attempt_fill_none {o : Options} {cs : List (List Char)}
    {all : List Char} {len fuel : Nat} {tape t1 : List Nat} {pw used : List Char}
    (he : ensureCharacterTypeInclusion o [] cs [] tape = some (.ok (pw, used, t1)))
    (hf : fillPassword o len
      (if o.noDuplicate then all.filter (fun c => !(used.contains c)) else all)
      fuel pw used t1 = none) :
    attempt o cs all len fuel tape = none := by
  rw [attempt, he]
  dsimp only
  rw [hf]

theorem batchLoop_attempt_none {o : Options} {cs : List (List Char)}
    {all : List Char} {len fuel n : Nat} {gen : List (List Char)} {tape : List Nat}
    (hlen : ¬ 5 ≤ gen.length)
    (ha : attempt o cs all len fuel tape = none) :
    batchLoop o cs all len fuel gen (n + 1) tape = none := by
  rw [batchLoop, if_neg hlen]
  rw [ha]

theorem generate_batch_none {o : Options} {len fuel : Nat} {tape : List Nat}
    (hflags : (o.includeNumbers || o.includeLowercase || o.includeUppercase ||
      o.includeSymbols) = true)
    (hpre : (o.noDuplicate &&
      decide ((buildCharacterSets o).flatten.length < len)) = false)
    (hb : batchLoop o (buildCharacterSets o) (buildCharacterSets o).flatten len
      fuel [] 1000 tape = none) :
    generate o len fuel tape = none := by
  rw [generate, if_neg (by simp [hflags])]
  simp only [hpre, if_false, Bool.false_eq_true]
  rw [hb]

/-- The deadlocked fill state: numbers only with `noDuplicate` and
`noSequential`, nine characters placed ending in '8', and '9' the only unused
available character.  '9' is code-point-adjacent to '8', so every draw is
rejected forever, whatever the randomness: the loop never exits. -/
theorem fill_deadlock :
    ∀ (fuel : Nat) (tape : List Nat),
      fillPassword ⟨true, false, false, false, false, true, true⟩ 10
        ['1', '2', '3', '4', '5', '6', '7', '8', '9'] fuel
        ['0', '2', '7', '5', '3', '1', '6', '4', '8']
        ['0', '2', '7', '5', '3', '1', '6', '4', '8'] tape = none := by
  intro fuel
  induction fuel with
  | zero =>
    intro tape
    rw [fillPassword, if_neg (by decide)]
  | succ f ih =>
    intro tape
    rw [fillPassword, if_neg (by decide)]
    dsimp only
    rw [if_neg (by decide),
      show (List.length (['1', '2', '3', '4', '5', '6', '7', '8', '9'] :
        List Char)) = 9 from rfl]
    rcases hdi : drawIndex 9 tape with _ | ⟨i, t1⟩
    · rfl
    · dsimp only
      have hi : i < 9 := (drawIndex_some hdi).1
      interval_cases i <;>
        first
          | (rw [if_pos (by decide)]; exact ih t1)
          | (rw [if_neg (by decide), if_pos (by decide)]; exact ih t1)

/-- From the state right after seeding ('0' placed, availables '1'-'9'), the
draw prefix 1,6,4,2,0,5,3,7 places 2,7,5,3,1,6,4,8 and reaches the deadlock:
no continuation of the randomness ever lets the fill loop finish. -/
theorem fill_chain (fuel : Nat) (tail : List Nat) :
    fillPassword ⟨true, false, false, false, false, true, true⟩ 10
      ['1', '2', '3', '4', '5', '6', '7', '8', '9'] fuel ['0'] ['0']
      ([1, 6, 4, 2, 0, 5, 3, 7] ++ tail) = none := by
  rcases Nat.lt_or_ge fuel 8 with hsmall | hbig
  · -- the budget runs out before the deadlock: each of the eight accepting
    -- iterations consumes one unit of fuel
    interval_cases fuel <;> rfl
  · obtain ⟨f, rfl⟩ : ∃ f, fuel = f + 8 := ⟨fuel - 8, by omega⟩
    exact fill_deadlock f tail

/-! ## Structural facts about the character sets, and specs of the
assembler's stages -/

set_option maxHeartbeats 2000000 in
/-- The four base alphabets are pairwise disjoint and duplicate-free, and
every class stays non-empty after similar-character removal; consequences for
every option combination, all decidable by evaluation. -/
theorem buildCharacterSets_facts (o : Options) :
    (∀ s ∈ buildCharacterSets o, s ≠ []) ∧
    List.Pairwise (fun a b => ∀ c ∈ a, c ∉ b) (buildCharacterSets o) ∧
    (buildCharacterSets o).flatten.Nodup ∧
    ((o.includeNumbers || o.includeLowercase || o.includeUppercase ||
        o.includeSymbols) = true → buildCharacterSets o ≠ []) ∧
    (o.noSimilar = true →
      ∀ c ∈ (buildCharacterSets o).flatten, c ∉ similarChars) := by
  rcases o with ⟨n, l, u, sy, sim, d, q⟩
  cases n <;> cases l <;> cases u <;> cases sy <;> cases sim <;> cases d <;>
    cases q <;> decide

theorem filter_not_contains_length (all u : List Char) (h : all.Nodup) :
    all.length - u.length ≤ (all.filter (fun c => !(u.contains c))).length := by
  have hperm : List.Perm ((all.filter (fun c => u.contains c)) ++
      (all.filter (fun c => !(u.contains c)))) all :=
    List.filter_append_perm _ all
  have hlen := hperm.length_eq
  rw [List.length_append] at hlen
  have hsub : (all.filter (fun c => u.contains c)).length ≤ u.length := by
    have hnd : (all.filter (fun c => u.contains c)).Nodup := h.filter _
    have hss : (all.filter (fun c => u.contains c)) ⊆ u := by
      intro c hc
      have := List.of_mem_filter hc
      exact List.mem_of_elem_eq_true this
    exact (List.subperm_of_subset hnd hss).length_le
  omega

theorem flatten_ne_nil {cs : List (List Char)} (hcs : cs ≠ [])
    (hne : ∀ s ∈ cs, s ≠ []) : cs.flatten ≠ [] := by
  cases cs with
  | nil => exact absurd rfl hcs
  | cons s rest =>
    have hs : s ≠ [] := hne s (by simp)
    cases s with
    | nil => exact absurd rfl hs
    | cons c t => simp

/-- Behaviour of the seeding stage: given non-empty classes (and, under
`noDuplicate`, classes disjoint from each other and from the used set), it
never throws, appends exactly one member of some class per class, and records
exactly those characters as used. -/
theorem ensure_spec (o : Options) :
    ∀ (cs : List (List Char)) (pass used : List Char) (tape : List Nat),
    (∀ s ∈ cs, s ≠ []) →
    (o.noDuplicate = true → (∀ s ∈ cs, ∀ c ∈ used, c ∉ s) ∧
      List.Pairwise (fun a b => ∀ c ∈ a, c ∉ b) cs) →
    (∀ e, ensureCharacterTypeInclusion o pass cs used tape ≠ some (.error e)) ∧
    (∀ pw u t', ensureCharacterTypeInclusion o pass cs used tape =
        some (.ok (pw, u, t')) →
      pw.length = pass.length + cs.length ∧
      u.length = used.length + cs.length ∧
      (∀ c ∈ pw, c ∈ pass ∨ c ∈ cs.flatten) ∧
      (∀ c ∈ u, c ∈ used ∨ c ∈ cs.flatten)) := by
  intro cs
  induction cs with
  | nil =>
    intro pass used tape hne hdis
    constructor
    · intro e h
      simp [ensureCharacterTypeInclusion] at h
    · intro pw u t' h
      simp only [ensureCharacterTypeInclusion, Option.some.injEq,
        Except.ok.injEq, Prod.mk.injEq] at h
      obtain ⟨h1, h2, h3⟩ := h
      subst h1; subst h2; subst h3
      exact ⟨by simp, by simp, fun c hc => Or.inl hc, fun c hc => Or.inl hc⟩
  | cons set rest ih =>
    intro pass used tape hne hdis
    have hset_ne : set ≠ [] := hne set (by simp)
    have havail :
        (if o.noDuplicate then set.filter (fun c => !(used.contains c))
         else set) = set := by
      by_cases hd : o.noDuplicate = true
      · rw [if_pos (by rw [hd])]
        apply List.filter_eq_self.mpr
        intro c hc
        have hcu : c ∉ used := fun hm => (hdis hd).1 set (by simp) c hm hc
        simp [hcu]
      · rw [if_neg (by simp [Bool.not_eq_true] at hd; rw [hd]; simp)]
    have hlen0 : ¬ set.length = 0 := by
      intro h0
      exact hset_ne (List.length_eq_zero.mp h0)
    have hunf : ensureCharacterTypeInclusion o pass (set :: rest) used tape =
        match drawIndex set.length tape with
        | none => none
        | some (i, t1) =>
          ensureCharacterTypeInclusion o (pass ++ [set.getD i ' ']) rest
            (used ++ [set.getD i ' ']) t1 := by
      simp only [ensureCharacterTypeInclusion]
      rw [havail, if_neg hlen0]
    have hne' : ∀ s ∈ rest, s ≠ [] := fun s hs => hne s (by simp [hs])
    rcases hdi : drawIndex set.length tape with _ | ⟨i, t1⟩ <;> rw [hdi] at hunf
    · exact ⟨fun e h => by rw [hunf] at h; exact Option.noConfusion h,
        fun pw u t' h => by rw [hunf] at h; exact Option.noConfusion h⟩
    · have hc_mem : set.getD i ' ' ∈ set := by
        have hi := (drawIndex_some hdi).1
        rw [List.getD_eq_getElem _ _ hi]
        exact List.getElem_mem hi
      have hdis' : o.noDuplicate = true →
          (∀ s ∈ rest, ∀ c ∈ used ++ [set.getD i ' '], c ∉ s) ∧
          List.Pairwise (fun a b => ∀ c ∈ a, c ∉ b) rest := by
        intro hd
        obtain ⟨hused, hpair⟩ := hdis hd
        obtain ⟨hhead, htail⟩ := List.pairwise_cons.mp hpair
        refine ⟨?_, htail⟩
        intro s hs c hc hcs
        rcases List.mem_append.mp hc with hcu | hcx
        · exact hused s (by simp [hs]) c hcu hcs
        · have hxc : c = set.getD i ' ' := by simpa using hcx
          subst hxc
          exact hhead s hs _ hc_mem hcs
      obtain ⟨ihe, ihok⟩ :=
        ih (pass ++ [set.getD i ' ']) (used ++ [set.getD i ' ']) t1 hne' hdis'
      constructor
      · intro e h
        rw [hunf] at h
        exact ihe e h
      · intro pw u t' h
        rw [hunf] at h
        obtain ⟨hl1, hl2, hm1, hm2⟩ := ihok pw u t' h
        refine ⟨by simp at hl1 ⊢; omega, by simp at hl2 ⊢; omega, ?_, ?_⟩
        · intro c hc
          rcases hm1 c hc with hcp | hcr
          · rcases List.mem_append.mp hcp with hcp' | hcx
            · exact Or.inl hcp'
            · have : c = set.getD i ' ' := by simpa using hcx
              subst this
              exact Or.inr (by
                rw [List.flatten_cons]
                exact List.mem_append.mpr (Or.inl hc_mem))
          · exact Or.inr (by
              rw [List.flatten_cons]
              exact List.mem_append.mpr (Or.inr hcr))
        · intro c hc
          rcases hm2 c hc with hcp | hcr
          · rcases List.mem_append.mp hcp with hcp' | hcx
            · exact Or.inl hcp'
            · have : c = set.getD i ' ' := by simpa using hcx
              subst this
              exact Or.inr (by
                rw [List.flatten_cons]
                exact List.mem_append.mpr (Or.inl hc_mem))
          · exact Or.inr (by
              rw [List.flatten_cons]
              exact List.mem_append.mpr (Or.inr hcr))

/-- Behaviour of the filling stage: it never throws unless the available
array is empty with positions still to fill, the completed array has length
`max len pass.length` (the loop never truncates an over-long seed), and its
characters all come from the seed or the available array. -/
theorem fill_spec (o : Options) (len : Nat) (all : List Char) :
    ∀ (fuel : Nat) (pass used : List Char) (tape : List Nat),
    ((all ≠ [] ∨ len ≤ pass.length) →
      ∀ e, fillPassword o len all fuel pass used tape ≠ some (.error e)) ∧
    (∀ res u' t',
      fillPassword o len all fuel pass used tape = some (.ok (res, u', t')) →
      res.length = max len pass.length ∧ (∀ c ∈ res, c ∈ pass ∨ c ∈ all)) := by
  intro fuel
  induction fuel with
  | zero =>
    intro pass used tape
    constructor
    · intro hcond e h
      rw [fillPassword] at h
      by_cases hle : len ≤ pass.length
      · rw [if_pos hle] at h
        simp at h
      · rw [if_neg hle] at h
        exact Option.noConfusion h
    · intro res u' t' h
      rw [fillPassword] at h
      by_cases hle : len ≤ pass.length
      · rw [if_pos hle] at h
        simp only [Option.some.injEq, Except.ok.injEq, Prod.mk.injEq] at h
        obtain ⟨h1, h2, h3⟩ := h
        subst h1
        exact ⟨by omega, fun c hc => Or.inl hc⟩
      · rw [if_neg hle] at h
        exact Option.noConfusion h
  | succ f ih =>
    intro pass used tape
    constructor
    · intro hcond e h
      rw [fillPassword] at h
      by_cases hle : len ≤ pass.length
      · rw [if_pos hle] at h
        simp at h
      · rw [if_neg hle] at h
        have hall : all ≠ [] := by
          rcases hcond with h1 | h2
          · exact h1
          · exact absurd h2 hle
        have hlen0 : ¬ all.length = 0 := fun h0 => hall (List.length_eq_zero.mp h0)
        rw [if_neg hlen0] at h
        rcases hdi : drawIndex all.length tape with _ | ⟨i, t1⟩ <;> rw [hdi] at h
        · exact Option.noConfusion h
        · dsimp only at h
          by_cases h1 : (o.noDuplicate && used.contains (all.getD i ' ')) = true
          · rw [if_pos h1] at h
            exact (ih pass used t1).1 (Or.inl hall) e h
          · rw [if_neg h1] at h
            by_cases h2 : (o.noSequential && decide (0 < pass.length) &&
                isSequentialToLast pass (all.getD i ' ')) = true
            · rw [if_pos h2] at h
              exact (ih pass used t1).1 (Or.inl hall) e h
            · rw [if_neg h2] at h
              exact (ih _ _ t1).1 (Or.inl hall) e h
    · intro res u' t' h
      rw [fillPassword] at h
      by_cases hle : len ≤ pass.length
      · rw [if_pos hle] at h
        simp only [Option.some.injEq, Except.ok.injEq, Prod.mk.injEq] at h
        obtain ⟨h1, h2, h3⟩ := h
        subst h1
        exact ⟨by omega, fun c hc => Or.inl hc⟩
      · rw [if_neg hle] at h
        by_cases hlen0 : all.length = 0
        · rw [if_pos hlen0] at h
          simp at h
        · rw [if_neg hlen0] at h
          rcases hdi : drawIndex all.length tape with _ | ⟨i, t1⟩ <;> rw [hdi] at h
          · exact Option.noConfusion h
          · dsimp only at h
            have hc_mem : all.getD i ' ' ∈ all := by
              have hi := (drawIndex_some hdi).1
              rw [List.getD_eq_getElem _ _ hi]
              exact List.getElem_mem hi
            by_cases h1 : (o.noDuplicate && used.contains (all.getD i ' ')) = true
            · rw [if_pos h1] at h
              exact (ih pass used t1).2 res u' t' h
            · rw [if_neg h1] at h
              by_cases h2 : (o.noSequential && decide (0 < pass.length) &&
                  isSequentialToLast pass (all.getD i ' ')) = true
              · rw [if_pos h2] at h
                exact (ih pass used t1).2 res u' t' h
              · rw [if_neg h2] at h
                obtain ⟨hlen, hmem⟩ := (ih _ _ t1).2 res u' t' h
                constructor
                · simp at hlen
                  omega
                · intro c hc
                  rcases hmem c hc with hcp | hca
                  · rcases List.mem_append.mp hcp with hcp' | hcx
                    · exact Or.inl hcp'
                    · have : c = all.getD i ' ' := by simpa using hcx
                      subst this
                      exact Or.inr hc_mem
                  · exact Or.inr hca

theorem swap_length (arr : List Char) (i j : Nat) :
    (swap arr i j).length = arr.length := by
  rw [swap]
  rcases hgi : arr.get? i with _ | a <;> rcases hgj : arr.get? j with _ | b <;>
    simp [List.length_set]

theorem swap_subset (arr : List Char) (i j : Nat) :
    ∀ c ∈ swap arr i j, c ∈ arr := by
  intro c hc
  rcases hgi : arr.get? i with _ | a <;> rcases hgj : arr.get? j with _ | b <;>
    rw [swap, hgi, hgj] at hc <;> dsimp only at hc
  · exact hc
  · exact hc
  · exact hc
  · rcases List.mem_or_eq_of_mem_set hc with hc1 | hc1
    · rcases List.mem_or_eq_of_mem_set hc1 with hc2 | hc2
      · exact hc2
      · subst hc2
        exact List.get?_mem hgj
    · subst hc1
      exact List.get?_mem hgi

/-- The Fisher–Yates loop permutes in place: it preserves the length and
introduces no new characters. -/
theorem shuffleFrom_spec :
    ∀ (i : Nat) (arr : List Char) (tape : List Nat) (arr' : List Char)
      (t' : List Nat),
      shuffleFrom arr i tape = some (arr', t') →
      arr'.length = arr.length ∧ ∀ c ∈ arr', c ∈ arr := by
  intro i
  induction i with
  | zero =>
    intro arr tape arr' t' h
    simp only [shuffleFrom, Option.some.injEq, Prod.mk.injEq] at h
    obtain ⟨h1, h2⟩ := h
    subst h1
    exact ⟨rfl, fun c hc => hc⟩
  | succ n ih =>
    intro arr tape arr' t' h
    simp only [shuffleFrom] at h
    rcases hdi : drawIndex (n + 1 + 1) tape with _ | ⟨j, t1⟩ <;> rw [hdi] at h
    · exact Option.noConfusion h
    · obtain ⟨hl, hm⟩ := ih (swap arr (n + 1) j) t1 arr' t' h
      exact ⟨hl.trans (swap_length arr (n + 1) j),
        fun c hc => swap_subset arr (n + 1) j c (hm c hc)⟩

/-- Behaviour of one whole attempt on the engine's own inputs: with at least
one class selected and, under `noDuplicate`, a requested length within the
alphabet size, an attempt never throws; and any completed attempt returns a
password of length `max len #classes` whose characters all belong to the full
alphabet. -/
theorem attempt_spec (o : Options) (len fuel : Nat) (tape : List Nat)
    (hflags : (o.includeNumbers || o.includeLowercase || o.includeUppercase ||
      o.includeSymbols) = true)
    (hpre : o.noDuplicate = true → len ≤ (buildCharacterSets o).flatten.length) :
    (∀ e, attempt o (buildCharacterSets o) (buildCharacterSets o).flatten len
      fuel tape ≠ some (.error e)) ∧
    (∀ pw t', attempt o (buildCharacterSets o) (buildCharacterSets o).flatten
        len fuel tape = some (.ok (pw, t')) →
      pw.length = max len (buildCharacterSets o).length ∧
      ∀ c ∈ pw, c ∈ (buildCharacterSets o).flatten) := by
  obtain ⟨hne, hpair, hnodup, hcsne, _⟩ := buildCharacterSets_facts o
  have hcs_ne : buildCharacterSets o ≠ [] := hcsne hflags
  have hall_ne : (buildCharacterSets o).flatten ≠ [] := flatten_ne_nil hcs_ne hne
  obtain ⟨hens_err, hens_ok⟩ := ensure_spec o (buildCharacterSets o) [] [] tape
    hne (fun _ => ⟨fun s _ c hc => absurd hc (List.not_mem_nil c), hpair⟩)
  rcases hens : ensureCharacterTypeInclusion o [] (buildCharacterSets o) [] tape
    with _ | ⟨e0 | ⟨pw0, u0, t1⟩⟩
  · constructor
    · intro e h
      simp only [attempt, hens] at h
      exact Option.noConfusion h
    · intro pw t' h
      simp only [attempt, hens] at h
      exact Option.noConfusion h
  · exact ⟨fun e _ => absurd hens (hens_err e0),
      fun pw t' _ => absurd hens (hens_err e0)⟩
  · obtain ⟨hl0, hlu0, hm0, hmu0⟩ := hens_ok pw0 u0 t1 hens
    simp only [List.length_nil, Nat.zero_add] at hl0 hlu0
    have hcond : (if o.noDuplicate then (buildCharacterSets o).flatten.filter
        (fun c => !(u0.contains c)) else (buildCharacterSets o).flatten) ≠ [] ∨
        len ≤ pw0.length := by
      by_cases hd : o.noDuplicate = true
      · by_cases hle : len ≤ pw0.length
        · exact Or.inr hle
        · left
          rw [if_pos hd]
          intro hnil
          have h2 := filter_not_contains_length (buildCharacterSets o).flatten
            u0 hnodup
          rw [hnil] at h2
          simp only [List.length_nil, Nat.le_zero] at h2
          have hlen_all := hpre hd
          omega
      · left
        rw [if_neg hd]
        exact hall_ne
    obtain ⟨hfe, hfo⟩ := fill_spec o len
      (if o.noDuplicate then (buildCharacterSets o).flatten.filter
        (fun c => !(u0.contains c)) else (buildCharacterSets o).flatten)
      fuel pw0 u0 t1
    rcases hfill : fillPassword o len
        (if o.noDuplicate then (buildCharacterSets o).flatten.filter
          (fun c => !(u0.contains c)) else (buildCharacterSets o).flatten)
        fuel pw0 u0 t1 with _ | ⟨e1 | ⟨res, u2, t2⟩⟩
    · constructor
      · intro e h
        simp only [attempt, hens, hfill] at h
        exact Option.noConfusion h
      · intro pw t' h
        simp only [attempt, hens, hfill] at h
        exact Option.noConfusion h
    · exact ⟨fun e _ => absurd hfill (hfe hcond e1),
        fun pw t' _ => absurd hfill (hfe hcond e1)⟩
    · obtain ⟨hlr, hmr⟩ := hfo res u2 t2 hfill
      rcases hsh : shuffleFrom res (res.length - 1) t2 with _ | ⟨arr, t3⟩
      · constructor
        · intro e h
          simp only [attempt, hens, hfill, hsh] at h
          exact Option.noConfusion h
        · intro pw t' h
          simp only [attempt, hens, hfill, hsh] at h
          exact Option.noConfusion h
      · constructor
        · intro e h
          simp only [attempt, hens, hfill, hsh] at h
          injection h with h'
          exact Except.noConfusion h'
        · intro pw t' h
          simp only [attempt, hens, hfill, hsh, Option.some.injEq,
            Except.ok.injEq, Prod.mk.injEq] at h
          obtain ⟨h1, h2⟩ := h
          subst h1
          obtain ⟨hshlen, hshmem⟩ := shuffleFrom_spec _ res t2 _ t3 hsh
          constructor
          · rw [hshlen, hlr, hl0]
          · intro c hc
            rcases hmr c (hshmem c hc) with hp | ha
            · rcases hm0 c hp with h0 | hf
              · exact absurd h0 (List.not_mem_nil c)
              · exact hf
            · by_cases hd : o.noDuplicate = true
              · rw [if_pos hd] at ha
                exact List.mem_of_mem_filter ha
              · rw [if_neg hd] at ha
                exact ha

/-- If no attempt can throw, the batch loop never reports an error. -/
theorem batchLoop_no_error (o : Options) (cs : List (List Char))
    (all : List Char) (len fuel : Nat)
    (ha : ∀ tape e, attempt o cs all len fuel tape ≠ some (.error e)) :
    ∀ (n : Nat) (gen : List (List Char)) (tape : List Nat) ps err t a,
      batchLoop o cs all len fuel gen n tape = some (ps, err, t, a) →
      err = none := by
  intro n
  induction n with
  | zero =>
    intro gen tape ps err t a h
    rw [batchLoop] at h
    by_cases h5 : 5 ≤ gen.length
    · rw [if_pos h5] at h
      simp only [Option.some.injEq, Prod.mk.injEq] at h
      exact h.2.1.symm
    · rw [if_neg h5] at h
      simp only [Option.some.injEq, Prod.mk.injEq] at h
      exact h.2.1.symm
  | succ m ih =>
    intro gen tape ps err t a h
    rw [batchLoop] at h
    by_cases h5 : 5 ≤ gen.length
    · rw [if_pos h5] at h
      simp only [Option.some.injEq, Prod.mk.injEq] at h
      exact h.2.1.symm
    · rw [if_neg h5] at h
      rcases hatt : attempt o cs all len fuel tape with _ | ⟨e1 | ⟨pw, tape'⟩⟩ <;>
        rw [hatt] at h
      · exact Option.noConfusion h
      · exact absurd hatt (ha tape e1)
      · dsimp only at h
        by_cases hdup : gen.contains pw = true
        · rw [if_pos hdup] at h
          rcases hrec : batchLoop o cs all len fuel gen m tape'
            with _ | ⟨ps', err', t'', a'⟩ <;> rw [hrec] at h
          · exact Option.noConfusion h
          · simp only [Option.some.injEq, Prod.mk.injEq] at h
            exact h.2.1 ▸ ih gen tape' ps' err' t'' a' hrec
        · rw [if_neg hdup] at h
          rcases hrec : batchLoop o cs all len fuel (gen ++ [pw]) m tape'
            with _ | ⟨ps', err', t'', a'⟩ <;> rw [hrec] at h
          · exact Option.noConfusion h
          · simp only [Option.some.injEq, Prod.mk.injEq] at h
            exact h.2.1 ▸ ih (gen ++ [pw]) tape' ps' err' t'' a' hrec

/-- Any property of every completed attempt's password carries over to every
password the batch loop accepts. -/
theorem batchLoop_mem (o : Options) (cs : List (List Char)) (all : List Char)
    (len fuel : Nat) (P : List Char → Prop)
    (hatt : ∀ tape pw t', attempt o cs all len fuel tape = some (.ok (pw, t')) →
      P pw) :
    ∀ (n : Nat) (gen : List (List Char)) (tape : List Nat) ps err t a,
      (∀ pw ∈ gen, P pw) →
      batchLoop o cs all len fuel gen n tape = some (ps, err, t, a) →
      ∀ pw ∈ ps, P pw := by
  intro n
  induction n with
  | zero =>
    intro gen tape ps err t a hgen h
    rw [batchLoop] at h
    by_cases h5 : 5 ≤ gen.length
    · rw [if_pos h5] at h
      simp only [Option.some.injEq, Prod.mk.injEq] at h
      exact h.1 ▸ hgen
    · rw [if_neg h5] at h
      simp only [Option.some.injEq, Prod.mk.injEq] at h
      exact h.1 ▸ hgen
  | succ m ih =>
    intro gen tape ps err t a hgen h
    rw [batchLoop] at h
    by_cases h5 : 5 ≤ gen.length
    · rw [if_pos h5] at h
      simp only [Option.some.injEq, Prod.mk.injEq] at h
      exact h.1 ▸ hgen
    · rw [if_neg h5] at h
      rcases hatt2 : attempt o cs all len fuel tape with _ | ⟨e1 | ⟨pw, tape'⟩⟩ <;>
        rw [hatt2] at h
      · exact Option.noConfusion h
      · simp only [Option.some.injEq, Prod.mk.injEq] at h
        exact h.1 ▸ hgen
      · dsimp only at h
        by_cases hdup : gen.contains pw = true
        · rw [if_pos hdup] at h
          rcases hrec : batchLoop o cs all len fuel gen m tape'
            with _ | ⟨ps', err', t'', a'⟩ <;> rw [hrec] at h
          · exact Option.noConfusion h
          · simp only [Option.some.injEq, Prod.mk.injEq] at h
            exact h.1 ▸ ih gen tape' ps' err' t'' a' hgen hrec
        · rw [if_neg hdup] at h
          rcases hrec : batchLoop o cs all len fuel (gen ++ [pw]) m tape'
            with _ | ⟨ps', err', t'', a'⟩ <;> rw [hrec] at h
          · exact Option.noConfusion h
          · simp only [Option.some.injEq, Prod.mk.injEq] at h
            have hgen' : ∀ q ∈ gen ++ [pw], P q := by
              intro q hq
              rcases List.mem_append.mp hq with hq1 | hq2
              · exact hgen q hq1
              · have : q = pw := by simpa using hq2
                subst this
                exact hatt tape q tape' hatt2
            exact h.1 ▸ ih (gen ++ [pw]) tape' ps' err' t'' a' hgen' hrec

/-- The batch loop accepts at most `max gen.length 5` passwords and makes at
most `attemptsLeft` attempts. -/
theorem batchLoop_bound (o : Options) (cs : List (List Char)) (all : List Char)
    (len fuel : Nat) :
    ∀ (n : Nat) (gen : List (List Char)) (tape : List Nat) ps err t a,
      batchLoop o cs all len fuel gen n tape = some (ps, err, t, a) →
      ps.length ≤ max gen.length 5 ∧ a ≤ n := by
  intro n
  induction n with
  | zero =>
    intro gen tape ps err t a h
    rw [batchLoop] at h
    by_cases h5 : 5 ≤ gen.length
    · rw [if_pos h5] at h
      simp only [Option.some.injEq, Prod.mk.injEq] at h
      obtain ⟨h1, _, _, h4⟩ := h
      subst h1
      omega
    · rw [if_neg h5] at h
      simp only [Option.some.injEq, Prod.mk.injEq] at h
      obtain ⟨h1, _, _, h4⟩ := h
      subst h1
      omega
  | succ m ih =>
    intro gen tape ps err t a h
    rw [batchLoop] at h
    by_cases h5 : 5 ≤ gen.length
    · rw [if_pos h5] at h
      simp only [Option.some.injEq, Prod.mk.injEq] at h
      obtain ⟨h1, _, _, h4⟩ := h
      subst h1
      omega
    · rw [if_neg h5] at h
      rcases hatt2 : attempt o cs all len fuel tape with _ | ⟨e1 | ⟨pw, tape'⟩⟩ <;>
        rw [hatt2] at h
      · exact Option.noConfusion h
      · simp only [Option.some.injEq, Prod.mk.injEq] at h
        obtain ⟨h1, _, _, h4⟩ := h
        subst h1
        omega
      · dsimp only at h
        by_cases hdup : gen.contains pw = true
        · rw [if_pos hdup] at h
          rcases hrec : batchLoop o cs all len fuel gen m tape'
            with _ | ⟨ps', err', t'', a'⟩ <;> rw [hrec] at h
          · exact Option.noConfusion h
          · simp only [Option.some.injEq, Prod.mk.injEq] at h
            obtain ⟨h1, _, _, h4⟩ := h
            subst h1
            obtain ⟨hb1, hb2⟩ := ih gen tape' ps' err' t'' a' hrec
            omega
        · rw [if_neg hdup] at h
          rcases hrec : batchLoop o cs all len fuel (gen ++ [pw]) m tape'
            with _ | ⟨ps', err', t'', a'⟩ <;> rw [hrec] at h
          · exact Option.noConfusion h
          · simp only [Option.some.injEq, Prod.mk.injEq] at h
            obtain ⟨h1, _, _, h4⟩ := h
            subst h1
            obtain ⟨hb1, hb2⟩ := ih (gen ++ [pw]) tape' ps' err' t'' a' hrec
            simp only [List.length_append, List.length_cons, List.length_nil] at hb1
            omega

/-- Inverting a `.results` outcome of the click handler back to its batch
loop run. -/
theorem generate_results_inv (o : Options) (len fuel : Nat) (tape : List Nat)
    (ps : List (List Char)) (err : Option GenError) (py : Bool) (a : Nat)
    (t' : List Nat)
    (h : generate o len fuel tape = some (.results ps err py a, t')) :
    batchLoop o (buildCharacterSets o) (buildCharacterSets o).flatten len fuel
      [] 1000 tape = some (ps, err, t', a) ∧
    (err = none → py = decide (ps.length < 5)) ∧
    (o.includeNumbers || o.includeLowercase || o.includeUppercase ||
      o.includeSymbols) = true ∧
    (o.noDuplicate &&
      decide ((buildCharacterSets o).flatten.length < len)) = false := by
  rw [generate] at h
  by_cases hflags : (o.includeNumbers || o.includeLowercase ||
      o.includeUppercase || o.includeSymbols) = true
  · rw [if_neg (by simp [hflags])] at h
    by_cases hpre : (o.noDuplicate &&
        decide ((buildCharacterSets o).flatten.length < len)) = true
    · rw [if_pos hpre] at h
      simp only [Option.some.injEq, Prod.mk.injEq] at h
      exact absurd h.1 (by simp)
    · rw [if_neg hpre] at h
      rcases hb : batchLoop o (buildCharacterSets o)
          (buildCharacterSets o).flatten len fuel [] 1000 tape
        with _ | ⟨ps', err', t'', a'⟩ <;> rw [hb] at h
      · exact Option.noConfusion h
      · rcases err' with _ | e
        · dsimp only at h
          simp only [Option.some.injEq, Prod.mk.injEq, GenOutcome.results.injEq]
            at h
          obtain ⟨⟨h1, h2, h3, h4⟩, h5⟩ := h
          subst h1; subst h2; subst h4; subst h5
          exact ⟨rfl, fun _ => h3.symm, hflags,
            by simp only [Bool.not_eq_true] at hpre; exact hpre⟩
        · dsimp only at h
          simp only [Option.some.injEq, Prod.mk.injEq, GenOutcome.results.injEq]
            at h
          obtain ⟨⟨h1, h2, h3, h4⟩, h5⟩ := h
          subst h1; subst h2; subst h4; subst h5
          exact ⟨rfl, fun hc => absurd hc (by simp), hflags,
            by simp only [Bool.not_eq_true] at hpre; exact hpre⟩
  · rw [if_pos (by simp only [Bool.not_eq_true] at hflags; rw [hflags]; rfl)] at h
    simp only [Option.some.injEq, Prod.mk.injEq] at h
    exact absurd h.1 (by simp)

/-- Claim C2: the filling loop of a single attempt does NOT always terminate.
With numbers only, `noDuplicate` and `noSequential`, length 10, the draw
prefix 0,1,6,4,2,0,5,3,7 seeds '0' and fills 2,7,5,3,1,6,4,8; the only unused
character '9' is then permanently rejected as code-point-adjacent to '8', so
the whole generation request diverges: it never completes on any continuation
of the random stream and with any iteration budget — `maxAttempts` never even
gets a second attempt, so it is not a liveness guarantee for this loop. -/
theorem C2_fill_loop_can_hang (fuel : Nat) (tail : List Nat) :
    generate ⟨true, false, false, false, false, true, true⟩ 10 fuel
      (([0, 1, 6, 4, 2, 0, 5, 3, 7] : List Nat) ++ tail) = none := by
  apply generate_batch_none (by decide) (by decide)
  apply batchLoop_attempt_none (by decide)
  have he : ensureCharacterTypeInclusion
      ⟨true, false, false, false, false, true, true⟩ []
      (buildCharacterSets ⟨true, false, false, false, false, true, true⟩) []
      (([0, 1, 6, 4, 2, 0, 5, 3, 7] : List Nat) ++ tail) =
      some (.ok (['0'], ['0'], ([1, 6, 4, 2, 0, 5, 3, 7] : List Nat) ++ tail)) := rfl
  apply attempt_fill_none he
  exact fill_chain fuel tail

/-- Claim C7 counterexample: numbers and lowercase selected, `noDuplicates`
off, requested length 1.  Seeding pushes one character per selected class
unconditionally, so every accepted password has length 2, not 1: a single
assembly does NOT produce a candidate of exactly the requested length when
the length is smaller than the number of selected classes. -/
theorem C7_counterexample :
    generate ⟨true, true, false, false, false, false, false⟩ 1 100
        [0, 0, 0, 1, 1, 0, 2, 2, 0, 3, 3, 0, 4, 4, 0] =
      some (.results [['a', '0'], ['b', '1'], ['c', '2'], ['d', '3'],
        ['e', '4']] none false 5, []) ∧
    (['a', '0'] : List Char).length ≠ 1 :=
  ⟨by decide, by decide⟩

/-- Claim C7 amended: with at least one class selected and `noDuplicates`
off, a single assembly attempt never raises a structural error, and any
completed attempt has length exactly `max L #classes` — hence exactly `L`
precisely when `L` is at least the number of selected classes (seeding always
contributes one character per class and the filling loop never trims). -/
theorem C7_amended_exact_length (o : Options) (len fuel : Nat)
    (tape : List Nat)
    (hflags : (o.includeNumbers || o.includeLowercase || o.includeUppercase ||
      o.includeSymbols) = true)
    (hdup : o.noDuplicate = false) :
    (∀ e, attempt o (buildCharacterSets o) (buildCharacterSets o).flatten len
      fuel tape ≠ some (.error e)) ∧
    (∀ pw t', attempt o (buildCharacterSets o) (buildCharacterSets o).flatten
        len fuel tape = some (.ok (pw, t')) →
      pw.length = max len (buildCharacterSets o).length ∧
      ((buildCharacterSets o).length ≤ len → pw.length = len)) := by
  have hpre : o.noDuplicate = true →
      len ≤ (buildCharacterSets o).flatten.length := by
    intro hd
    rw [hdup] at hd
    exact absurd hd (by simp)
  obtain ⟨h1, h2⟩ := attempt_spec o len fuel tape hflags hpre
  refine ⟨h1, fun pw t' h => ?_⟩
  obtain ⟨hl, _⟩ := h2 pw t' h
  exact ⟨hl, fun hle => by rw [hl]; omega⟩

/-- Claim C7 amended witness: numbers+lowercase, length 1, draws 0,0,0: the
attempt completes with "a0", of length `max 1 2 = 2`. -/
theorem C7_amended_witness :
    (['a', '0'] : List Char).length =
      max 1 (buildCharacterSets
        ⟨true, true, false, false, false, false, false⟩).length :=
  ((C7_amended_exact_length ⟨true, true, false, false, false, false, false⟩
    1 5 [0, 0, 0] (by decide) rfl).2 ['a', '0'] [] rfl).1

/-- Claim C8: every character of every accepted password belongs to the
union of the alphabets implied by the selected flags (the flattened character
sets, after similar-character removal), and when `noSimilar` is set none of
the seven characters i, l, 1, L, o, 0, O can occur. -/
theorem C8_membership (o : Options) (len fuel : Nat) (tape : List Nat)
    (ps : List (List Char)) (err : Option GenError) (py : Bool) (a : Nat)
    (t' : List Nat)
    (h : generate o len fuel tape = some (.results ps err py a, t')) :
    ∀ pw ∈ ps, ∀ c ∈ pw,
      c ∈ (buildCharacterSets o).flatten ∧
      (o.noSimilar = true → c ∉ similarChars) := by
  obtain ⟨hb, _, hflags, hprec⟩ :=
    generate_results_inv o len fuel tape ps err py a t' h
  have hpre : o.noDuplicate = true →
      len ≤ (buildCharacterSets o).flatten.length := by
    intro hd
    rw [hd, Bool.true_and] at hprec
    simp only [decide_eq_false_iff_not, Nat.not_lt] at hprec
    exact hprec
  have hmem := batchLoop_mem o (buildCharacterSets o)
    (buildCharacterSets o).flatten len fuel
    (fun pw => ∀ c ∈ pw, c ∈ (buildCharacterSets o).flatten)
    (fun tape2 pw t2 hat =>
      ((attempt_spec o len fuel tape2 hflags hpre).2 pw t2 hat).2)
    1000 [] tape ps err t' a (fun pw hpw => absurd hpw (List.not_mem_nil pw)) hb
  intro pw hpw c hc
  exact ⟨hmem pw hpw c hc,
    fun hsim => (buildCharacterSets_facts o).2.2.2.2 hsim c (hmem pw hpw c hc)⟩

/-- Claim C8 witness: a completed lowercase-only run with `noSimilar` off;
the theorem certifies 'd' of the first password "dab" lies in the lowercase
alphabet. -/
theorem C8_witness :
    'd' ∈ (buildCharacterSets
      ⟨false, true, false, false, false, false, true⟩).flatten ∧
    ((⟨false, true, false, false, false, false, true⟩ : Options).noSimilar =
      true → 'd' ∉ similarChars) :=
  C8_membership ⟨false, true, false, false, false, false, true⟩ 3 100
    [0, 3, 1, 2, 0, 4, 7, 10, 2, 0, 8, 11, 14, 2, 0, 12, 15, 18, 2, 0,
      16, 19, 22, 2, 0]
    [['d', 'a', 'b'], ['h', 'e', 'k'], ['l', 'i', 'o'], ['p', 'm', 's'],
      ['t', 'q', 'w']] none false 5 [] rfl
    ['d', 'a', 'b'] (by decide) 'd' (by decide)

/-- Claim C10: the two thrown-error branches are structurally unreachable
through the click handler: the classes are pairwise disjoint and each stays
non-empty after similar-character removal, so seeding always finds an unused
character, and once the length precheck has passed the available array at
fill start is never empty — a completed run never carries a thrown error. -/
theorem C10_no_structural_errors (o : Options) (len fuel : Nat)
    (tape : List Nat) (ps : List (List Char)) (err : Option GenError)
    (py : Bool) (a : Nat) (t' : List Nat)
    (h : generate o len fuel tape = some (.results ps err py a, t')) :
    err = none ∧
    List.Pairwise (fun s1 s2 => ∀ c ∈ s1, c ∉ s2) (buildCharacterSets o) ∧
    (∀ s ∈ buildCharacterSets o, s ≠ []) := by
  obtain ⟨hb, _, hflags, hprec⟩ :=
    generate_results_inv o len fuel tape ps err py a t' h
  have hpre : o.noDuplicate = true →
      len ≤ (buildCharacterSets o).flatten.length := by
    intro hd
    rw [hd, Bool.true_and] at hprec
    simp only [decide_eq_false_iff_not, Nat.not_lt] at hprec
    exact hprec
  refine ⟨?_, (buildCharacterSets_facts o).2.1, (buildCharacterSets_facts o).1⟩
  exact batchLoop_no_error o (buildCharacterSets o)
    (buildCharacterSets o).flatten len fuel
    (fun tape2 e => (attempt_spec o len fuel tape2 hflags hpre).1 e)
    1000 [] tape ps err t' a hb

/-- Claim C10 witness: the numbers-only `noDuplicate` run of length 10 on a
lucky tape completes; the theorem certifies no thrown error occurred. -/
theorem C10_witness :
    (none : Option GenError) = none ∧
    List.Pairwise (fun s1 s2 => ∀ c ∈ s1, c ∉ s2) (buildCharacterSets
      ⟨false, true, false, false, false, false, true⟩) ∧
    (∀ s ∈ buildCharacterSets ⟨false, true, false, false, false, false, true⟩,
      s ≠ []) :=
  C10_no_structural_errors ⟨false, true, false, false, false, false, true⟩
    3 100
    [0, 3, 1, 2, 0, 4, 7, 10, 2, 0, 8, 11, 14, 2, 0, 12, 15, 18, 2, 0,
      16, 19, 22, 2, 0]
    [['d', 'a', 'b'], ['h', 'e', 'k'], ['l', 'i', 'o'], ['p', 'm', 's'],
      ['t', 'q', 'w']] none false 5 [] rfl

/-- Claim C6: the batch loop makes at most 1000 attempts and accepts at most
5 passwords; it stops immediately (making zero further attempts) once 5 are
accepted or the budget is exhausted, keeping the accepted partial list with
no error; the partial-yield message fires exactly when fewer than 5 were
accepted without a thrown error; and an attempt whose password equals an
already accepted one is discarded silently — the loop retries with the same
accepted list and no error is raised for the collision. -/
theorem C6_batch_semantics (o : Options) (len fuel : Nat) :
    (∀ tape ps err py a t',
      generate o len fuel tape = some (.results ps err py a, t') →
      ps.length ≤ 5 ∧ a ≤ 1000 ∧ (err = none → (py = true ↔ ps.length < 5))) ∧
    (∀ gen n tape, 5 ≤ gen.length →
      batchLoop o (buildCharacterSets o) (buildCharacterSets o).flatten len
        fuel gen n tape = some (gen, none, tape, 0)) ∧
    (∀ gen tape,
      batchLoop o (buildCharacterSets o) (buildCharacterSets o).flatten len
        fuel gen 0 tape = some (gen, none, tape, 0)) ∧
    (∀ gen n tape pw tape2 ps2 err2 t2 a2, ¬ 5 ≤ gen.length →
      attempt o (buildCharacterSets o) (buildCharacterSets o).flatten len fuel
        tape = some (.ok (pw, tape2)) →
      gen.contains pw = true →
      batchLoop o (buildCharacterSets o) (buildCharacterSets o).flatten len
        fuel gen n tape2 = some (ps2, err2, t2, a2) →
      batchLoop o (buildCharacterSets o) (buildCharacterSets o).flatten len
        fuel gen (n + 1) tape = some (ps2, err2, t2, a2 + 1)) := by
  refine ⟨?_, ?_, ?_, ?_⟩
  · intro tape ps err py a t' h
    obtain ⟨hb, hpy, hflags, hprec⟩ :=
      generate_results_inv o len fuel tape ps err py a t' h
    obtain ⟨hlen, hatt⟩ := batchLoop_bound o (buildCharacterSets o)
      (buildCharacterSets o).flatten len fuel 1000 [] tape ps err t' a hb
    refine ⟨by simpa using hlen, hatt, ?_⟩
    intro herr
    rw [hpy herr]
    simp
  · intro gen n tape h5
    cases n with
    | zero => rw [batchLoop, if_pos h5]
    | succ m => rw [batchLoop, if_pos h5]
  · intro gen tape
    rw [batchLoop]
    by_cases h5 : 5 ≤ gen.length
    · rw [if_pos h5]
    · rw [if_neg h5]
  · intro gen n tape pw tape2 ps2 err2 t2 a2 h5 hatt hdup hrec
    rw [batchLoop, if_neg h5, hatt]
    dsimp only
    rw [if_pos hdup, hrec]

/-- Bounds for the scenario entropy: `8·log2 26` lies strictly between 37.55
and 37.65 (it is ≈ 37.60), proved by comparing 100th powers: `2^3755 < 26^800
< 2^3765`. -/
theorem entropy_8_26_bounds :
    (37.55 : ℝ) < calculateEntropy 8 26 ∧ calculateEntropy 8 26 < 37.65 := by
  have hcalc : calculateEntropy 8 26 = Real.logb 2 ((26 : ℝ) ^ (8 : ℕ)) := by
    rw [calculateEntropy, Real.logb_pow]
    norm_num
  have hx : (0 : ℝ) < (26 : ℝ) ^ (8 : ℕ) := by positivity
  have hb : (1 : ℝ) < 2 := by norm_num
  constructor
  · rw [hcalc, Real.lt_logb_iff_rpow_lt hb hx]
    have hr : ((2 : ℝ) ^ (37.55 : ℝ)) ^ (100 : ℕ) = (2 : ℝ) ^ (3755 : ℕ) := by
      rw [← Real.rpow_natCast ((2 : ℝ) ^ (37.55 : ℝ)) 100,
        ← Real.rpow_mul (by norm_num : (0 : ℝ) ≤ 2),
        show (37.55 * ((100 : ℕ) : ℝ)) = ((3755 : ℕ) : ℝ) by norm_num,
        Real.rpow_natCast]
    have h100 : ((2 : ℝ) ^ (37.55 : ℝ)) ^ (100 : ℕ) <
        ((26 : ℝ) ^ (8 : ℕ)) ^ (100 : ℕ) := by
      rw [hr, ← pow_mul]
      have hnat : (2 : ℕ) ^ 3755 < 26 ^ 800 := by norm_num
      exact_mod_cast hnat
    exact (pow_lt_pow_iff_left₀ (by positivity) (by positivity)
      (by norm_num : (100 : ℕ) ≠ 0)).mp h100
  · rw [hcalc, Real.logb_lt_iff_lt_rpow hb hx]
    have hr : ((2 : ℝ) ^ (37.65 : ℝ)) ^ (100 : ℕ) = (2 : ℝ) ^ (3765 : ℕ) := by
      rw [← Real.rpow_natCast ((2 : ℝ) ^ (37.65 : ℝ)) 100,
        ← Real.rpow_mul (by norm_num : (0 : ℝ) ≤ 2),
        show (37.65 * ((100 : ℕ) : ℝ)) = ((3765 : ℕ) : ℝ) by norm_num,
        Real.rpow_natCast]
    have h100 : ((26 : ℝ) ^ (8 : ℕ)) ^ (100 : ℕ) <
        ((2 : ℝ) ^ (37.65 : ℝ)) ^ (100 : ℕ) := by
      rw [hr, ← pow_mul]
      have hnat : (26 : ℕ) ^ 800 < 2 ^ 3765 := by norm_num
      exact_mod_cast hnat
    exact (pow_lt_pow_iff_left₀ (by positivity) (by positivity)
      (by norm_num : (100 : ℕ) ≠ 0)).mp h100

/-- Claim C9: entropy is `length · log2(alphabetSize)` (before the
two-decimal display formatting), the alphabet used for the size is
duplicate-free so its length is its count of distinct characters, the
lowercase-only alphabet has 26 characters, the scenario entropy `8·log2 26`
is ≈ 37.60 (strictly between 37.55 and 37.65) and maps to the "Weak" tier,
and the tier thresholds are inclusive below and exclusive above: <50 Weak,
<70 Fair, <90 Good, <110 Strong, <130 Very Strong, <150 Extremely Strong,
otherwise Unbreakable. -/
theorem C9_entropy_and_strength :
    (∀ len size : Nat, calculateEntropy len size = len * Real.logb 2 size) ∧
    (∀ o : Options, (buildCharacterSets o).flatten.Nodup) ∧
    (buildCharacterSets
      ⟨false, true, false, false, false, false, false⟩).flatten.length = 26 ∧
    ((37.55 : ℝ) < calculateEntropy 8 26 ∧ calculateEntropy 8 26 < 37.65) ∧
    getPasswordStrength (calculateEntropy 8 26) = ⟨"Weak", "strength-weak"⟩ ∧
    getPasswordStrength 49 = ⟨"Weak", "strength-weak"⟩ ∧
    getPasswordStrength 50 = ⟨"Fair", "strength-fair"⟩ ∧
    getPasswordStrength 69 = ⟨"Fair", "strength-fair"⟩ ∧
    getPasswordStrength 70 = ⟨"Good", "strength-good"⟩ ∧
    getPasswordStrength 89 = ⟨"Good", "strength-good"⟩ ∧
    getPasswordStrength 90 = ⟨"Strong", "strength-strong"⟩ ∧
    getPasswordStrength 109 = ⟨"Strong", "strength-strong"⟩ ∧
    getPasswordStrength 110 = ⟨"Very Strong", "strength-very-strong"⟩ ∧
    getPasswordStrength 129 = ⟨"Very Strong", "strength-very-strong"⟩ ∧
    getPasswordStrength 130 =
      ⟨"Extremely Strong", "strength-extremely-strong"⟩ ∧
    getPasswordStrength 149 =
      ⟨"Extremely Strong", "strength-extremely-strong"⟩ ∧
    getPasswordStrength 150 = ⟨"Unbreakable", "strength-unbreakable"⟩ := by
  refine ⟨fun len size => rfl, fun o => (buildCharacterSets_facts o).2.2.1,
    by decide, entropy_8_26_bounds, ?_, ?_, ?_, ?_, ?_, ?_, ?_, ?_, ?_, ?_,
    ?_, ?_, ?_⟩
  · rw [getPasswordStrength,
      if_pos (lt_trans entropy_8_26_bounds.2 (by norm_num))]
  · rw [getPasswordStrength, if_pos (by norm_num)]
  · rw [getPasswordStrength, if_neg (by norm_num), if_pos (by norm_num)]
  · rw [getPasswordStrength, if_neg (by norm_num), if_pos (by norm_num)]
  · rw [getPasswordStrength, if_neg (by norm_num), if_neg (by norm_num),
      if_pos (by norm_num)]
  · rw [getPasswordStrength, if_neg (by norm_num), if_neg (by norm_num),
      if_pos (by norm_num)]
  · rw [getPasswordStrength, if_neg (by norm_num), if_neg (by norm_num),
      if_neg (by norm_num), if_pos (by norm_num)]
  · rw [getPasswordStrength, if_neg (by norm_num), if_neg (by norm_num),
      if_neg (by norm_num), if_pos (by norm_num)]
  · rw [getPasswordStrength, if_neg (by norm_num), if_neg (by norm_num),
      if_neg (by norm_num), if_neg (by norm_num), if_pos (by norm_num)]
  · rw [getPasswordStrength, if_neg (by norm_num), if_neg (by norm_num),
      if_neg (by norm_num), if_neg (by norm_num), if_pos (by norm_num)]
  · rw [getPasswordStrength, if_neg (by norm_num), if_neg (by norm_num),
      if_neg (by norm_num), if_neg (by norm_num), if_neg (by norm_num),
      if_pos (by norm_num)]
  · rw [getPasswordStrength, if_neg (by norm_num), if_neg (by norm_num),
      if_neg (by norm_num), if_neg (by norm_num), if_neg (by norm_num),
      if_pos (by norm_num)]
  · rw [getPasswordStrength, if_neg (by norm_num), if_neg (by norm_num),
      if_neg (by norm_num), if_neg (by norm_num), if_neg (by norm_num),
      if_neg (by norm_num)]

/-- Claim C6 witness: the theorem's generate-level conjunct applied to a
completed concrete run: 5 accepted, 5 attempts, no partial yield. -/
theorem C6_witness :
    ([['a', '0'], ['b', '1'], ['c', '2'], ['d', '3'], ['e', '4']] :
      List (List Char)).length ≤ 5 ∧ 5 ≤ 1000 ∧
    ((none : Option GenError) = none →
      (false = true ↔ ([['a', '0'], ['b', '1'], ['c', '2'], ['d', '3'],
        ['e', '4']] : List (List Char)).length < 5)) :=
  (C6_batch_semantics ⟨true, true, false, false, false, false, false⟩ 1
    100).1 [0, 0, 0, 1, 1, 0, 2, 2, 0, 3, 3, 0, 4, 4, 0]
    [['a', '0'], ['b', '1'], ['c', '2'], ['d', '3'], ['e', '4']] none false 5
    [] rfl

end PwGen
